import Mathlib

/-!
# Verification of the logbook checksum / metadata subsystem

Shallow embedding of the parts of the repository that the checked claims
concern:

* `src/chksum.py` — the `QuarterSha256Base36Digester` (SHA-256, first
  quarter of the digest, base-36, zero-filled to 13 characters) and the
  `FileRenamer` checksum repository (regex-driven filename lock state
  machine).
* `src/adapter/video_adapter.py` — `DefaultVideoAdapter.frame_spec` and the
  frame-reading loop of `OpencvVideoAdapter.frames`.
* `src/metadata/file_metadata.py` — `CompositeMetadata.add` / `get`.

Filenames are embedded as `List Char` (the final path component only: every
operation of `FileRenamer` renames within `file.parent`, so the directory
part never changes and is dropped from the model).  Python `float`
arithmetic in `frame_spec` is modelled exactly over `ℚ`/`ℕ`; in particular
`math.log(x, 10)` is modelled by the exact integer logarithm (see
`log_frames`).  Machine integers are modelled as `ℕ` with explicit
`% 2 ^ 32` where SHA-256 wraps.
-/

namespace Logbook

/-! ## The checksum regex of `FileRenamer`

`FileRenamer.__init__` compiles (with `re.IGNORECASE`, used via `fullmatch`)

  `^(?P<pre>.*?)\.(?P<checksum>[0-9a-z]{13})(?P<suf>\..*)?$`

instantiated with `QuarterSha256Base36Digester` (`valid_chars = "0-9a-z"`,
`length = 13`) as in `Main`.  Because the group before the checksum is lazy
(`.*?`) and both ends are anchored, a full match exists exactly when some
position `i` carries a dot followed by 13 alphabet characters which are
followed by a dot or the end, and the regex engine commits to the least
such `i`.  `.` does not match a newline (no `re.DOTALL`), so a name
containing `'\n'` never matches: the lazy group and the `.*` inside the
optional suffix group would each have to consume it. -/

/-- The characters matched by `[0-9a-z]` under `re.IGNORECASE` (the model
restricts Unicode case folding to ASCII). -/
def validChar (c : Char) : Bool :=
  (('0' ≤ c) && (c ≤ '9')) || (('a' ≤ c) && (c ≤ 'z')) || (('A' ≤ c) && (c ≤ 'Z'))

/-- The digest alphabet `0-9a-z` itself (no upper case): the character set of
checksum values produced by `QuarterSha256Base36Digester`. -/
def lowerAlnum (c : Char) : Bool :=
  (('0' ≤ c) && (c ≤ '9')) || (('a' ≤ c) && (c ≤ 'z'))

/-- The optional trailing group can participate only on `[]` or a leading
dot. -/
def sufOkB (s : List Char) : Bool :=
  match s with
  | [] => true
  | c :: _ => c == '.'

/-- After the mandatory dot, the rest of a candidate match: exactly 13
alphabet characters, then a dot or the end of the name. -/
def segOk (r : List Char) : Bool :=
  decide (13 ≤ r.length) && (r.take 13).all validChar && sufOkB (r.drop 13)

/-- Index of the match chosen by the backtracking engine: the least `i` with
a dot at `i` and `segOk` after it (the lazy `.*?` tries the shortest
possibility first). -/
def scanIdx : List Char → Option Nat
  | [] => none
  | c :: rest =>
      if c == '.' && segOk rest then some 0
      else (scanIdx rest).map (· + 1)

/-- Whether the name contains a newline, which defeats `.*?` and `.*`. -/
def hasNl (l : List Char) : Bool := l.any (· == '\n')

/-- Position of the checksum match of `checksum_pattern.fullmatch(name)`,
`none` when the pattern does not match. -/
def fullmatchIdx (l : List Char) : Option Nat :=
  if hasNl l then none else scanIdx l

/-- The regex group before the dot preceding the checksum. -/
def gPre (l : List Char) (i : Nat) : List Char := l.take i

/-- The regex group holding the matched 13-character segment. -/
def gChk (l : List Char) (i : Nat) : List Char := (l.drop (i + 1)).take 13

/-- The optional group after the checksum (`[]` both for an empty
participation and for `None`, matching `match.group("suf") or ""`). -/
def gSuf (l : List Char) (i : Nat) : List Char := l.drop (i + 14)

/-- The `Checksum` dataclass: a path (final filename component) and a value. -/
structure Checksum where
  path : List Char
  value : List Char
deriving DecidableEq, Repr

/-- Model of `FileRenamer.has_checksum`. -/
def has_checksum (name : List Char) : Bool :=
  (fullmatchIdx name).isSome

/-- Model of `FileRenamer.checksum`: the matched group lower-cased, `none` for the
`ValueError` raised when there is no match. -/
def checksum (name : List Char) : Option (List Char) :=
  (fullmatchIdx name).map (fun i => (gChk name i).map Char.toLower)

/-! ## `pathlib` stem and suffix

`PurePath.stem`/`PurePath.suffix` split the name at the last dot, provided
that dot is neither the leading character nor the final character. -/

/-- Index of the last dot of the name, if any. -/
def rfindDot : List Char → Option Nat
  | [] => none
  | c :: rest =>
      match rfindDot rest with
      | some i => some (i + 1)
      | none => if c == '.' then some 0 else none

/-- Model of `pathlib.PurePath.stem` of a filename. -/
def pyStem (name : List Char) : List Char :=
  match rfindDot name with
  | none => name
  | some i => if 0 < i ∧ i + 1 < name.length then name.take i else name

/-- Model of `pathlib.PurePath.suffix` of a filename. -/
def pySuffix (name : List Char) : List Char :=
  match rfindDot name with
  | none => []
  | some i => if 0 < i ∧ i + 1 < name.length then name.drop i else []

/-- Model of `FileRenamer.write_checksum`: rename `stem` to `stem.checksum` (keeping
the extension) unless the name already matches. -/
def write_checksum (c : Checksum) : Checksum :=
  if has_checksum c.path then c
  else ⟨pyStem c.path ++ '.' :: (c.value ++ pySuffix c.path), c.value⟩

/-- Model of `FileRenamer.delete_checksum`: drop the matched segment, except when the
name would become empty (the walrus `if new_file_name := ...` guard). -/
def delete_checksum (c : Checksum) : Checksum :=
  match fullmatchIdx c.path with
  | none => c
  | some i =>
      let newName := gPre c.path i ++ gSuf c.path i
      if newName = [] then c else ⟨newName, c.value⟩

/-! Declarative view of the same pattern, used to state leftmost-ness. -/

/-- Predicate `matchAtB l i`: the pattern can place its checksum group right after
position `i` (a dot at `i`, then 13 alphabet characters, then a dot or the
end). -/
def matchAtB (l : List Char) (i : Nat) : Bool :=
  match l.drop i with
  | [] => false
  | c :: rest => c == '.' && segOk rest

/-! ## `QuarterSha256Base36Digester`

`compute_digest` feeds the file bytes (none, for an empty file) to
`hashlib.sha256`, takes the first quarter (8 bytes) of the digest as a
big-endian unsigned integer, writes it in base 36 and left-zero-fills to 13
characters.  `hashlib.sha256` is embedded as the FIPS 180-4 algorithm over
`ℕ` with explicit wrapping `% 2 ^ 32`; bytes are `ℕ` below 256. -/

/-- Wrap-around addition of 32-bit words. -/
def add32 (a b : Nat) : Nat := (a + b) % 4294967296

/-- Right rotation of a 32-bit word. -/
def rotr32 (n x : Nat) : Nat := ((x >>> n) ||| (x <<< (32 - n))) % 4294967296

/-- FIPS 180-4 `Ch` (32-bit complement written as xor with ones). -/
def chF (x y z : Nat) : Nat := (x &&& y) ^^^ ((x ^^^ 4294967295) &&& z)

/-- FIPS 180-4 `Maj`. -/
def majF (x y z : Nat) : Nat := (x &&& y) ^^^ (x &&& z) ^^^ (y &&& z)

/-- FIPS 180-4 `Σ₀`. -/
def bsig0 (x : Nat) : Nat := rotr32 2 x ^^^ rotr32 13 x ^^^ rotr32 22 x

/-- FIPS 180-4 `Σ₁`. -/
def bsig1 (x : Nat) : Nat := rotr32 6 x ^^^ rotr32 11 x ^^^ rotr32 25 x

/-- FIPS 180-4 `σ₀`. -/
def ssig0 (x : Nat) : Nat := rotr32 7 x ^^^ rotr32 18 x ^^^ (x >>> 3)

/-- FIPS 180-4 `σ₁`. -/
def ssig1 (x : Nat) : Nat := rotr32 17 x ^^^ rotr32 19 x ^^^ (x >>> 10)

/-- The 64 SHA-256 round constants. -/
def shaK : List Nat :=
  [0x428A2F98, 0x71374491, 0xB5C0FBCF, 0xE9B5DBA5,
   0x3956C25B, 0x59F111F1, 0x923F82A4, 0xAB1C5ED5,
   0xD807AA98, 0x12835B01, 0x243185BE, 0x550C7DC3,
   0x72BE5D74, 0x80DEB1FE, 0x9BDC06A7, 0xC19BF174,
   0xE49B69C1, 0xEFBE4786, 0x0FC19DC6, 0x240CA1CC,
   0x2DE92C6F, 0x4A7484AA, 0x5CB0A9DC, 0x76F988DA,
   0x983E5152, 0xA831C66D, 0xB00327C8, 0xBF597FC7,
   0xC6E00BF3, 0xD5A79147, 0x06CA6351, 0x14292967,
   0x27B70A85, 0x2E1B2138, 0x4D2C6DFC, 0x53380D13,
   0x650A7354, 0x766A0ABB, 0x81C2C92E, 0x92722C85,
   0xA2BFE8A1, 0xA81A664B, 0xC24B8B70, 0xC76C51A3,
   0xD192E819, 0xD6990624, 0xF40E3585, 0x106AA070,
   0x19A4C116, 0x1E376C08, 0x2748774C, 0x34B0BCB5,
   0x391C0CB3, 0x4ED8AA4A, 0x5B9CCA4F, 0x682E6FF3,
   0x748F82EE, 0x78A5636F, 0x84C87814, 0x8CC70208,
   0x90BEFFFA, 0xA4506CEB, 0xBEF9A3F7, 0xC67178F2]

/-- The eight initial hash words. -/
structure Hash8 where
  a : Nat
  b : Nat
  c : Nat
  d : Nat
  e : Nat
  f : Nat
  g : Nat
  h : Nat

/-- Initial SHA-256 state. -/
def shaH0 : Hash8 :=
  ⟨0x6A09E667, 0xBB67AE85, 0x3C6EF372, 0xA54FF53A,
   0x510E527F, 0x9B05688C, 0x1F83D9AB, 0x5BE0CD19⟩

/-- Big-endian 8-byte encoding of the 64-bit message bit length. -/
def lenBytes64 (n : Nat) : List Nat :=
  [n >>> 56 % 256, n >>> 48 % 256, n >>> 40 % 256, n >>> 32 % 256,
   n >>> 24 % 256, n >>> 16 % 256, n >>> 8 % 256, n % 256]

/-- SHA-256 padding: `0x80`, zeros to 56 mod 64, the bit length. -/
def padMessage (msg : List Nat) : List Nat :=
  msg ++ 128 :: List.replicate ((119 - msg.length % 64) % 64) 0
    ++ lenBytes64 (8 * msg.length)

/-- Big-endian 32-bit words from groups of four bytes. -/
def bytesToWords : List Nat → List Nat
  | a :: b :: c :: d :: rest =>
      (((a * 256 + b) * 256 + c) * 256 + d) :: bytesToWords rest
  | _ => []

/-- Split the padded message into 64-byte blocks (structural recursion on a
fuel bound so that closed digests reduce inside the kernel; the fuel
`l.length` always suffices because every step drops 64 ≥ 1 bytes). -/
def chunks64Go : Nat → List Nat → List (List Nat)
  | 0, _ => []
  | _ + 1, [] => []
  | fuel + 1, a :: l => (a :: l).take 64 :: chunks64Go fuel ((a :: l).drop 64)

/-- Split the padded message into 64-byte blocks. -/
def chunks64 (l : List Nat) : List (List Nat) := chunks64Go l.length l

/-- Append the next word of the message schedule. -/
def extendSchedule (ws : List Nat) : List Nat :=
  ws ++ [add32 (add32 (ws.getD (ws.length - 16) 0) (ssig0 (ws.getD (ws.length - 15) 0)))
           (add32 (ws.getD (ws.length - 7) 0) (ssig1 (ws.getD (ws.length - 2) 0)))]

/-- The 64-word message schedule of one block. -/
def messageSchedule (block : List Nat) : List Nat :=
  (List.range 48).foldl (fun ws _ => extendSchedule ws) (bytesToWords block)

/-- One SHA-256 round, consuming a round constant and a schedule word. -/
def roundStep (st : Hash8) (kw : Nat × Nat) : Hash8 :=
  let t1 := add32 st.h (add32 (bsig1 st.e) (add32 (chF st.e st.f st.g) (add32 kw.1 kw.2)))
  let t2 := add32 (bsig0 st.a) (majF st.a st.b st.c)
  ⟨add32 t1 t2, st.a, st.b, st.c, add32 st.d t1, st.e, st.f, st.g⟩

/-- Compress one block into the state. -/
def compressBlock (st : Hash8) (block : List Nat) : Hash8 :=
  let fin := (shaK.zip (messageSchedule block)).foldl roundStep st
  ⟨add32 st.a fin.a, add32 st.b fin.b, add32 st.c fin.c, add32 st.d fin.d,
   add32 st.e fin.e, add32 st.f fin.f, add32 st.g fin.g, add32 st.h fin.h⟩

/-- Big-endian bytes of one 32-bit word. -/
def wordBytes (w : Nat) : List Nat :=
  [w >>> 24 % 256, w >>> 16 % 256, w >>> 8 % 256, w % 256]

/-- The eight state words in output order. -/
def stateWords (st : Hash8) : List Nat :=
  [st.a, st.b, st.c, st.d, st.e, st.f, st.g, st.h]

/-- The 32 digest bytes of SHA-256 of a byte string. -/
def sha256 (msg : List Nat) : List Nat :=
  (stateWords ((chunks64 (padMessage msg)).foldl compressBlock shaH0)).flatMap wordBytes

/-- Model of `int.from_bytes(bs, byteorder="big", signed=False)`. -/
def fromBytesBE (bs : List Nat) : Nat :=
  bs.foldl (fun acc b => acc * 256 + b) 0

/-- The base-36 digit characters of `base_36`. -/
def base36Digits : List Char := "0123456789abcdefghijklmnopqrstuvwxyz".toList

/-- The digit loop of `base_36` on a fuel bound (`n` itself always
suffices, because the quotient strictly decreases while positive). -/
def base36revGo : Nat → Nat → List Char
  | 0, _ => []
  | fuel + 1, n =>
      if n = 0 then [] else base36Digits.getD (n % 36) '0' :: base36revGo fuel (n / 36)

/-- The digits of `base_36`, least significant first (empty for zero). -/
def base36rev (n : Nat) : List Char := base36revGo n n

/-- Model of `QuarterSha256Base36Digester.base_36` (the call site passes the
non-negative `int.from_bytes(..., signed=False)`, so the negative branch of
the source is dead and the model takes `ℕ`). -/
def base_36 (n : Nat) : List Char :=
  if n = 0 then ['0'] else (base36rev n).reverse

/-- Model of `str.zfill`: left-pad with zeros to the given width (no sign handling:
the argument is an unsigned base-36 numeral). -/
def zfill (s : List Char) (w : Nat) : List Char :=
  List.replicate (w - s.length) '0' ++ s

/-- The checksum value computed by
`QuarterSha256Base36Digester.compute_digest` from the byte content of a
file (an empty list for an empty file, for which the source skips the
`mmap` update and digests the empty message). -/
def compute_digest (content : List Nat) : List Char :=
  zfill (base_36 (fromBytesBE ((sha256 content).take ((sha256 content).length / 4)))) 13

/-! ## `DefaultVideoAdapter.frame_spec`

The Python source computes with `float`; every quantity here is either
exactly representable (`N * 2.5`, `N * 97.5`, quotients by 100 are
correctly rounded and compared through `math.ceil`, which is exact for the
frame counts in range) or the `int(min_sample_size * (math.log(x, 10) + 1))`
count, which equals `m + ⌊m·log₁₀ x⌋ = m + Nat.log 10 (x ^ m)` in exact
arithmetic; the model uses that exact value. -/

/-- Model of `VideoAdapter.Metrics`. -/
structure Metrics where
  duration : ℚ
  frame_rate : ℚ
  width : ℤ
  height : ℤ
  number_of_frames : ℕ

/-- Model of `VideoAdapter.FrameSpec` (the `metrics` back-pointer is kept). -/
structure FrameSpec where
  metrics : Metrics
  size : ℤ × ℤ
  frame_numbers : List ℕ

/-- Ceiling division `math.ceil(a / b)` for naturals, `b > 0`. -/
def ceilDiv (a b : Nat) : Nat := (a + b - 1) / b

/-- Model of `math.ceil((N * start_percentage) / 100)` at the default 2.5. -/
def startFrame (n : Nat) : Nat := ceilDiv (n * 25) 1000

/-- Model of `math.ceil((N * end_percentage) / 100)` at the default 97.5. -/
def endFrame (n : Nat) : Nat := ceilDiv (n * 975) 1000

/-- Model of `frames_in_range = end_frame - start_frame + 1`. -/
def framesInRange (n : Nat) : Nat := endFrame n - startFrame n + 1

/-- Exact `⌊log₁₀ n⌋` loop (0 at 0), on a fuel bound that `n` itself
always covers. -/
def log10Go : Nat → Nat → Nat
  | 0, _ => 0
  | fuel + 1, n => if n < 10 then 0 else 1 + log10Go fuel (n / 10)

/-- Exact `⌊log₁₀ n⌋` for `n ≥ 1`. -/
def natLog10 (n : Nat) : Nat := log10Go n n

/-- Model of `int(min_sample_size * (math.log(frames_in_range + 1, 10) + 1))` in
exact arithmetic: `int(m·(log₁₀ x + 1)) = m + ⌊m·log₁₀ x⌋ = m + ⌊log₁₀ (x ^ m)⌋`. -/
def logFrames (m fir : Nat) : Nat := m + natLog10 ((fir + 1) ^ m)

/-- Model of `target_number_of_frames`. -/
def targetFrames (m fir : Nat) : Nat :=
  if m < logFrames m fir then min (logFrames m fir) fir else m

/-- Model of `step_size = math.ceil(frames_in_range / target_number_of_frames)`. -/
def stepSize (m fir : Nat) : Nat := ceilDiv fir (targetFrames m fir)

/-- Model of `list(range(start, stop, step))` for a positive step. -/
def pyRange (start stop step : Nat) : List Nat :=
  List.range' start (ceilDiv (stop - start) step) step

/-- Model of `DefaultVideoAdapter.frame_spec` at the default percentages, with the
sample-size parameter explicit (default 3). -/
def frame_spec (mt : Metrics) (min_sample_size : Nat) : FrameSpec :=
  let start := startFrame mt.number_of_frames
  let stop := endFrame mt.number_of_frames + 1
  let fir := framesInRange mt.number_of_frames
  let aspect : ℚ := (mt.width : ℚ) / (mt.height : ℚ)
  let w : ℤ := if aspect < 1 then ⌊256 * aspect⌋ else 256
  let h : ℤ := if aspect < 1 then 256 else ⌊256 / aspect⌋
  { metrics := mt
    size := (w, h)
    frame_numbers := pyRange start stop (stepSize min_sample_size fir) }

/-! ## `OpencvVideoAdapter.frames`

The loop over `spec.frame_numbers`: each position is re-seeked, a read
either yields a frame (appended together with
`frame_number / total_number_of_frames`) or fails, in which case the frame
number is appended to `missed_frames` unless three are already recorded,
when the `IOError` escapes.  The wall-clock timeout branch is real time and
is not part of this model; reads are an oracle `read`. -/

/-- The body of the reading loop:  `missed` and `acc` accumulate. -/
def framesLoop {α : Type} (read : Nat → Option α) (total : ℚ) :
    List Nat → List Nat → List (α × ℚ) → Except String (List (α × ℚ))
  | [], _, acc => .ok acc.reverse
  | n :: rest, missed, acc =>
      match read n with
      | some img => framesLoop read total rest missed ((img, (n : ℚ) / total) :: acc)
      | none =>
          if 3 ≤ missed.length then .error ("opencv read third strike")
          else framesLoop read total rest (missed ++ [n]) acc

/-- Model of `OpencvVideoAdapter.frames` restricted to its read loop. -/
def opencv_frames {α : Type} (read : Nat → Option α) (total : ℚ)
    (frameNumbers : List Nat) : Except String (List (α × ℚ)) :=
  framesLoop read total frameNumbers [] []

/-- The number of frame numbers whose read fails (specification-side count
used to characterise the loop). -/
def missedCount {α : Type} (read : Nat → Option α) (fns : List Nat) : Nat :=
  (fns.filter (fun n => (read n).isNone)).length

/-- The successfully read frames, in order, with their positions
(specification-side description of the loop output). -/
def readFrames {α : Type} (read : Nat → Option α) (total : ℚ)
    (fns : List Nat) : List (α × ℚ) :=
  fns.filterMap (fun n => (read n).map (fun img => (img, (n : ℚ) / total)))

/-! ## `CompositeMetadata`

`_aggregate` is a `dict` keyed by `type(m)`; the model keys by a numeric
type tag and models object identity (`is not`) by a numeric object id, so
two distinct instances of one type share `ty` and differ in `objId`.  Every
modelled value is a `Metadata` instance, so the `isinstance` guard of the
source never fires in the model. -/

/-- A concrete metadata instance: its concrete type and its identity. -/
structure MetaObj where
  ty : Nat
  objId : Nat
deriving DecidableEq, Repr

/-- Python `dict` lookup by type tag (`CompositeMetadata.get`). -/
def dictGet (agg : List (Nat × MetaObj)) (ty : Nat) : Option MetaObj :=
  (agg.find? (fun p => p.1 == ty)).map (fun p => p.2)

/-- Python dict update with one binding: replace in place or append. -/
def dictSet : List (Nat × MetaObj) → Nat → MetaObj → List (Nat × MetaObj)
  | [], ty, m => [(ty, m)]
  | (t, x) :: rest, ty, m =>
      if t == ty then (ty, m) :: rest else (t, x) :: dictSet rest ty m

/-- Model of `CompositeMetadata.add`: `ValueError` when `overwrite` is false, the
type is present and the stored instance is not the argument itself. -/
def addMeta (agg : List (Nat × MetaObj)) (m : MetaObj) (overwrite : Bool) :
    Except String (List (Nat × MetaObj)) :=
  if overwrite = false ∧ (dictGet agg m.ty).isSome ∧ dictGet agg m.ty ≠ some m then
    .error ("already added")
  else .ok (dictSet agg m.ty m)

/-! ## Lemmas about the regex scanner -/

theorem matchAtB_cons_succ (c : Char) (l : List Char) (i : Nat) :
    matchAtB (c :: l) (i + 1) = matchAtB l i := rfl

theorem matchAtB_cons_zero (c : Char) (l : List Char) :
    matchAtB (c :: l) 0 = (c == '.' && segOk l) := rfl

theorem matchAtB_nil (i : Nat) : matchAtB [] i = false := by
  unfold matchAtB
  simp

theorem scanIdx_sound {l : List Char} {i : Nat} (h : scanIdx l = some i) :
    matchAtB l i = true := by
  induction l generalizing i with
  | nil => simp [scanIdx] at h
  | cons c rest ih =>
      rw [scanIdx] at h
      by_cases hb : (c == '.' && segOk rest) = true
      · rw [if_pos hb] at h
        cases h
        exact hb
      · rw [if_neg hb] at h
        obtain ⟨j, hj, rfl⟩ := Option.map_eq_some'.mp h
        rw [matchAtB_cons_succ]
        exact ih hj

theorem scanIdx_least {l : List Char} {i : Nat} (h : scanIdx l = some i) :
    ∀ j, j < i → matchAtB l j = false := by
  induction l generalizing i with
  | nil => simp [scanIdx] at h
  | cons c rest ih =>
      rw [scanIdx] at h
      by_cases hb : (c == '.' && segOk rest) = true
      · rw [if_pos hb] at h
        cases h
        intro j hj
        omega
      · rw [if_neg hb] at h
        obtain ⟨j', hj', rfl⟩ := Option.map_eq_some'.mp h
        intro j hj
        cases j with
        | zero =>
            rw [matchAtB_cons_zero]
            exact Bool.eq_false_iff.mpr hb
        | succ m =>
            rw [matchAtB_cons_succ]
            exact ih hj' m (by omega)

theorem scanIdx_isSome_of_matchAt {l : List Char} {i : Nat}
    (h : matchAtB l i = true) : (scanIdx l).isSome = true := by
  induction l generalizing i with
  | nil => rw [matchAtB_nil] at h; cases h
  | cons c rest ih =>
      rw [scanIdx]
      by_cases hb : (c == '.' && segOk rest) = true
      · rw [if_pos hb]
        rfl
      · rw [if_neg hb]
        cases i with
        | zero =>
            rw [matchAtB_cons_zero] at h
            exact absurd h hb
        | succ m =>
            rw [matchAtB_cons_succ] at h
            have hrest := ih h
            cases hs : scanIdx rest with
            | none => rw [hs] at hrest; cases hrest
            | some j => rfl

theorem scanIdx_eq_none_iff {l : List Char} :
    scanIdx l = none ↔ ∀ i, matchAtB l i = false := by
  constructor
  · intro h i
    cases hm : matchAtB l i with
    | false => rfl
    | true =>
        have := scanIdx_isSome_of_matchAt hm
        rw [h] at this
        cases this
  · intro h
    cases hs : scanIdx l with
    | none => rfl
    | some i =>
        have := scanIdx_sound hs
        rw [h i] at this
        cases this

theorem scanIdx_eq_some_iff {l : List Char} {i : Nat} :
    scanIdx l = some i ↔
      (matchAtB l i = true ∧ ∀ j, j < i → matchAtB l j = false) := by
  constructor
  · intro h
    exact ⟨scanIdx_sound h, scanIdx_least h⟩
  · rintro ⟨hm, hmin⟩
    have hs := scanIdx_isSome_of_matchAt hm
    obtain ⟨i', hi'⟩ := Option.isSome_iff_exists.mp hs
    rcases Nat.lt_trichotomy i i' with hlt | heq | hgt
    · rw [scanIdx_least hi' i hlt] at hm
      cases hm
    · rw [heq]
      exact hi'
    · have h1 := scanIdx_sound hi'
      rw [hmin i' hgt] at h1
      cases h1

theorem drop_ne_nil_lt_length {l : List Char} {i : Nat} {c : Char}
    {rest : List Char} (h : l.drop i = c :: rest) : i < l.length := by
  by_contra hle
  rw [List.drop_eq_nil_of_le (by omega)] at h
  cases h

theorem matchAtB_decomp {l : List Char} {i : Nat} (h : matchAtB l i = true) :
    ∃ p k s, l = p ++ '.' :: (k ++ s) ∧ p.length = i ∧ k.length = 13 ∧
      k.all validChar = true ∧ sufOkB s = true := by
  rw [matchAtB.eq_def] at h
  cases hd : l.drop i with
  | nil => rw [hd] at h; cases h
  | cons c rest =>
      rw [hd] at h
      simp only [Bool.and_eq_true, beq_iff_eq] at h
      obtain ⟨hc, hseg⟩ := h
      have hseg' := hseg
      unfold segOk at hseg'
      simp only [Bool.and_eq_true, decide_eq_true_eq] at hseg'
      obtain ⟨⟨hlen, hall⟩, hsuf⟩ := hseg'
      have hi : i < l.length := drop_ne_nil_lt_length hd
      refine ⟨l.take i, rest.take 13, rest.drop 13, ?_, ?_, ?_, hall, hsuf⟩
      · conv_lhs => rw [← List.take_append_drop i l]
        rw [hd, hc, List.take_append_drop]
      · rw [List.length_take]
        omega
      · rw [List.length_take]
        omega

theorem matchAtB_of_decomp (p : List Char) {k s : List Char}
    (hk : k.length = 13) (hall : k.all validChar = true)
    (hs : sufOkB s = true) :
    matchAtB (p ++ '.' :: (k ++ s)) p.length = true := by
  have hd : (p ++ '.' :: (k ++ s)).drop p.length = '.' :: (k ++ s) :=
    List.drop_left p _
  rw [matchAtB.eq_def, hd]
  simp only [Bool.and_eq_true, beq_iff_eq]
  refine ⟨by trivial, ?_⟩
  unfold segOk
  simp only [Bool.and_eq_true, decide_eq_true_eq]
  have htake : (k ++ s).take 13 = k := by
    rw [← hk]
    exact List.take_left k s
  have hdrop : (k ++ s).drop 13 = s := by
    rw [← hk]
    exact List.drop_left k s
  refine ⟨⟨?_, ?_⟩, ?_⟩
  · rw [List.length_append, hk]
    omega
  · rw [htake]
    exact hall
  · rw [hdrop]
    exact hs

/-! ## Character and stem/suffix lemmas -/

theorem validChar_no_newline {c : Char} (h : validChar c = true) :
    (c == '\n') = false := by
  cases hb : (c == '\n') with
  | false => rfl
  | true =>
      have hc : c = '\n' := beq_iff_eq.mp hb
      rw [hc] at h
      exact absurd h (by decide)

theorem lowerAlnum_validChar {c : Char} (h : lowerAlnum c = true) :
    validChar c = true := by
  unfold lowerAlnum at h
  unfold validChar
  simp only [Bool.or_eq_true] at h ⊢
  tauto

theorem all_lowerAlnum_validChar {l : List Char} (h : l.all lowerAlnum = true) :
    l.all validChar = true := by
  rw [List.all_eq_true] at h ⊢
  intro c hc
  exact lowerAlnum_validChar (h c hc)

theorem hasNl_eq_false_of_validChar {l : List Char}
    (h : l.all validChar = true) : hasNl l = false := by
  unfold hasNl
  rw [List.any_eq_false]
  intro c hc
  rw [List.all_eq_true] at h
  simp only [validChar_no_newline (h c hc)]
  exact Bool.false_ne_true

theorem hasNl_append (a b : List Char) :
    hasNl (a ++ b) = (hasNl a || hasNl b) := by
  unfold hasNl
  exact List.any_append

theorem pyStem_append_pySuffix (name : List Char) :
    pyStem name ++ pySuffix name = name := by
  unfold pyStem pySuffix
  cases rfindDot name with
  | none => simp
  | some i =>
      by_cases h : 0 < i ∧ i + 1 < name.length
      · simp only [if_pos h]
        exact List.take_append_drop i name
      · simp only [if_neg h, List.append_nil]

theorem rfindDot_head {l : List Char} {i : Nat} (h : rfindDot l = some i) :
    (l.drop i).head? = some '.' := by
  induction l generalizing i with
  | nil => simp [rfindDot] at h
  | cons c rest ih =>
      rw [rfindDot] at h
      cases hr : rfindDot rest with
      | some j =>
          rw [hr] at h
          cases h
          simpa using ih hr
      | none =>
          rw [hr] at h
          by_cases hc : (c == '.') = true
          · rw [if_pos hc] at h
            cases h
            simpa using beq_iff_eq.mp hc
          · rw [if_neg hc] at h
            cases h

theorem sufOkB_pySuffix (name : List Char) : sufOkB (pySuffix name) = true := by
  unfold pySuffix
  cases hr : rfindDot name with
  | none => rfl
  | some i =>
      by_cases h : 0 < i ∧ i + 1 < name.length
      · simp only [if_pos h]
        have hh := rfindDot_head hr
        cases hd : name.drop i with
        | nil => rw [hd] at hh; cases hh
        | cons c t =>
            rw [hd] at hh
            simp only [List.head?_cons, Option.some_inj] at hh
            unfold sufOkB
            simpa using hh
      · simp only [if_neg h]
        rfl

theorem pyStem_ne_nil {name : List Char} (h : name ≠ []) : pyStem name ≠ [] := by
  unfold pyStem
  cases rfindDot name with
  | none => exact h
  | some i =>
      by_cases hc : 0 < i ∧ i + 1 < name.length
      · simp only [if_pos hc]
        intro hcon
        have hlen := congrArg List.length hcon
        rw [List.length_take] at hlen
        simp only [List.length_nil] at hlen
        omega
      · simp only [if_neg hc]
        exact h

/-! ## Inserting a checksum into an unlocked name -/

theorem drop_append_of_le {α : Type} {n : Nat} {l₁ : List α} (l₂ : List α)
    (h : n ≤ l₁.length) : (l₁ ++ l₂).drop n = l₁.drop n ++ l₂ := by
  rw [List.drop_append_eq_append_drop, Nat.sub_eq_zero_of_le h, List.drop_zero]

theorem take_all_of_le {α : Type} {n : Nat} {l : List α}
    (h : l.length ≤ n) : l.take n = l := by
  induction l generalizing n with
  | nil => simp
  | cons a t ih =>
      cases n with
      | zero => simp at h
      | succ m =>
          simp only [List.take_succ_cons]
          rw [ih (by simpa using h)]

/-- If an unlocked `stem ++ sfx` receives `'.' :: value` in the middle, no
match can appear strictly inside `stem`: any such match maps back to a
match of `stem ++ sfx`. -/
theorem no_early_match {stem sfx value : List Char}
    (hsuf : sufOkB sfx = true)
    (hnone : ∀ i, matchAtB (stem ++ sfx) i = false) :
    ∀ j, j < stem.length → matchAtB (stem ++ '.' :: (value ++ sfx)) j = false := by
  intro j hj
  cases hm : matchAtB (stem ++ '.' :: (value ++ sfx)) j with
  | false => rfl
  | true =>
      exfalso
      obtain ⟨p, k, s, heq, hp, hk, hkall, hsOk⟩ := matchAtB_decomp hm
      have hdropL : (stem ++ '.' :: (value ++ sfx)).drop j =
          stem.drop j ++ '.' :: (value ++ sfx) :=
        drop_append_of_le _ (le_of_lt hj)
      have hdropR : (p ++ '.' :: (k ++ s)).drop j = '.' :: (k ++ s) := by
        rw [← hp]
        exact List.drop_left p _
      have hEq2 : stem.drop j ++ '.' :: (value ++ sfx) = '.' :: (k ++ s) := by
        rw [← hdropL, heq, hdropR]
      cases hq : stem.drop j with
      | nil =>
          have : stem.length ≤ j := by
            have hlen := congrArg List.length hq
            simp only [List.length_drop, List.length_nil] at hlen
            omega
          omega
      | cons c q =>
          rw [hq, List.cons_append] at hEq2
          injection hEq2 with hc hEq3
          -- the same position matches inside the original name
          have hgoal : matchAtB (stem ++ sfx) j = true := by
            have hdrop0 : (stem ++ sfx).drop j = '.' :: (q ++ sfx) := by
              rw [drop_append_of_le _ (le_of_lt hj), hq, hc, List.cons_append]
            rw [matchAtB.eq_def, hdrop0]
            simp only [Bool.and_eq_true, beq_iff_eq]
            refine ⟨by trivial, ?_⟩
            unfold segOk
            simp only [Bool.and_eq_true, decide_eq_true_eq]
            by_cases h13 : 13 ≤ q.length
            · -- the matched segment sits entirely inside q
              have htakeK : q.take 13 = k := by
                have := congrArg (List.take 13) hEq3
                rwa [List.take_append_of_le_length h13, ← hk,
                  List.take_left k s, hk] at this
              have hdropS : q.drop 13 ++ '.' :: (value ++ sfx) = s := by
                have := congrArg (List.drop 13) hEq3
                rwa [drop_append_of_le _ h13, ← hk, List.drop_left k s, hk] at this
              refine ⟨⟨?_, ?_⟩, ?_⟩
              · rw [List.length_append]
                omega
              · rw [List.take_append_of_le_length h13, htakeK]
                exact hkall
              · rw [drop_append_of_le _ h13]
                cases hqd : q.drop 13 with
                | nil => simpa using hsuf
                | cons c2 t =>
                    rw [hqd, List.cons_append] at hdropS
                    rw [← hdropS] at hsOk
                    unfold sufOkB at hsOk ⊢
                    simpa using hsOk
            · -- the segment would have to contain the inserted dot
              push_neg at h13
              have hdotmem : '.' ∈ k := by
                have := congrArg (List.take 13) hEq3
                rw [← hk, List.take_left k s, hk] at this
                rw [List.take_append_eq_append_take,
                  take_all_of_le (by omega)] at this
                obtain ⟨m, hm13⟩ : ∃ m, 13 - q.length = m + 1 := ⟨12 - q.length, by omega⟩
                rw [hm13, List.take_succ_cons] at this
                rw [← this]
                exact List.mem_append_right _ (List.mem_cons_self _ _)
              have := List.all_eq_true.mp hkall '.' hdotmem
              exact absurd this (by decide)
          rw [hnone j] at hgoal
          cases hgoal

theorem matchAtB_all_false_of_unlocked {name : List Char}
    (hnl : hasNl name = false) (hun : has_checksum name = false) :
    ∀ i, matchAtB name i = false := by
  unfold has_checksum fullmatchIdx at hun
  rw [hnl] at hun
  simp only [Bool.false_eq_true, if_false] at hun
  cases hs : scanIdx name with
  | none => exact scanIdx_eq_none_iff.mp hs
  | some i => rw [hs] at hun; cases hun

/-- After `write_checksum` renames an unlocked, newline-free name, the regex
matches exactly at the end of the stem. -/
theorem fullmatchIdx_write {name value : List Char}
    (hnl : hasNl name = false) (hun : has_checksum name = false)
    (hv13 : value.length = 13) (hvc : value.all validChar = true) :
    fullmatchIdx (pyStem name ++ '.' :: (value ++ pySuffix name)) =
      some (pyStem name).length := by
  have hsplit : pyStem name ++ pySuffix name = name := pyStem_append_pySuffix name
  have hnl2 : hasNl (pyStem name ++ pySuffix name) = false := by rw [hsplit]; exact hnl
  rw [hasNl_append, Bool.or_eq_false_iff] at hnl2
  have hnlnew : hasNl (pyStem name ++ '.' :: (value ++ pySuffix name)) = false := by
    rw [hasNl_append, Bool.or_eq_false_iff]
    refine ⟨hnl2.1, ?_⟩
    show ((('.' :: (value ++ pySuffix name))).any (· == '\n')) = false
    rw [List.any_cons, List.any_append, Bool.or_eq_false_iff, Bool.or_eq_false_iff]
    exact ⟨by decide, hasNl_eq_false_of_validChar hvc, hnl2.2⟩
  unfold fullmatchIdx
  rw [hnlnew]
  simp only [Bool.false_eq_true, if_false]
  rw [scanIdx_eq_some_iff]
  constructor
  · exact matchAtB_of_decomp (pyStem name) hv13 hvc (sufOkB_pySuffix name)
  · have hA := matchAtB_all_false_of_unlocked hnl hun
    rw [← hsplit] at hA
    exact no_early_match (sufOkB_pySuffix name) hA

/-- The regex groups at the match position recover stem, value and suffix. -/
theorem groups_at_insertion (stem value sfx : List Char) (hv13 : value.length = 13) :
    gPre (stem ++ '.' :: (value ++ sfx)) stem.length = stem ∧
      gChk (stem ++ '.' :: (value ++ sfx)) stem.length = value ∧
      gSuf (stem ++ '.' :: (value ++ sfx)) stem.length = sfx := by
  refine ⟨List.take_left stem _, ?_, ?_⟩
  · unfold gChk
    have h1 : (stem ++ '.' :: (value ++ sfx)).drop (stem.length + 1) = value ++ sfx := by
      have : stem ++ '.' :: (value ++ sfx) = (stem ++ ['.']) ++ (value ++ sfx) := by
        simp
      rw [this]
      have hlen : (stem ++ ['.']).length = stem.length + 1 := by simp
      rw [← hlen]
      exact List.drop_left _ _
    rw [h1, ← hv13]
    exact List.take_left value sfx
  · unfold gSuf
    have : stem ++ '.' :: (value ++ sfx) = (stem ++ '.' :: value) ++ sfx := by
      simp
    rw [this]
    have hlen : (stem ++ '.' :: value).length = stem.length + 14 := by
      simp [hv13]
    rw [← hlen]
    exact List.drop_left _ _

/-- Transfer of `segOk` across a replacement of everything after the first
13 characters, provided the old tail begins with a dot (or is empty) and
the new tail satisfies `sufOkB`. -/
theorem segOk_swap {q X Y : List Char} (hq : segOk (q ++ X) = true)
    (hX : X = [] ∨ X.head? = some '.') (hY : sufOkB Y = true) :
    segOk (q ++ Y) = true ∧ 13 ≤ q.length := by
  unfold segOk at hq
  simp only [Bool.and_eq_true, decide_eq_true_eq] at hq
  obtain ⟨⟨hlen, hall⟩, hsuf⟩ := hq
  have h13 : 13 ≤ q.length := by
    by_contra hlt
    push_neg at hlt
    rcases hX with hX0 | hXd
    · rw [hX0, List.append_nil] at hlen
      omega
    · cases hXc : X with
      | nil => rw [hXc] at hXd; cases hXd
      | cons x xs =>
          rw [hXc] at hXd
          simp only [List.head?_cons, Option.some_inj] at hXd
          have hmem : '.' ∈ (q ++ X).take 13 := by
            rw [List.take_append_eq_append_take, take_all_of_le (by omega)]
            obtain ⟨m, hm13⟩ : ∃ m, 13 - q.length = m + 1 := ⟨12 - q.length, by omega⟩
            rw [hm13, hXc, List.take_succ_cons, hXd]
            exact List.mem_append_right _ (List.mem_cons_self _ _)
          have := List.all_eq_true.mp hall '.' hmem
          exact absurd this (by decide)
  refine ⟨?_, h13⟩
  unfold segOk
  simp only [Bool.and_eq_true, decide_eq_true_eq]
  have htq : (q ++ X).take 13 = q.take 13 := List.take_append_of_le_length h13
  refine ⟨⟨?_, ?_⟩, ?_⟩
  · rw [List.length_append]
    omega
  · rw [List.take_append_of_le_length h13, ← htq]
    exact hall
  · rw [drop_append_of_le _ h13]
    rw [drop_append_of_le _ h13] at hsuf
    cases hqd : q.drop 13 with
    | nil => simpa using hY
    | cons c2 t =>
        rw [hqd] at hsuf
        rw [List.cons_append] at hsuf ⊢
        unfold sufOkB at hsuf ⊢
        exact hsuf

/-- A match of `p ++ s` lifts to a match of `p ++ '.' :: (k ++ s)` at a
position other than `p.length`: removing the matched segment of a
doubly-locked name leaves a locked name. -/
theorem match_lift {p k s : List Char} (hk : k.length = 13)
    (hsOk : sufOkB s = true)
    {j : Nat} (hm : matchAtB (p ++ s) j = true) :
    ∃ j2, matchAtB (p ++ '.' :: (k ++ s)) j2 = true ∧ j2 ≠ p.length := by
  by_cases hj : j < p.length
  · refine ⟨j, ?_, by omega⟩
    rw [matchAtB.eq_def] at hm
    rw [drop_append_of_le _ (le_of_lt hj)] at hm
    cases hq : p.drop j with
    | nil =>
        have hlen := congrArg List.length hq
        simp only [List.length_drop, List.length_nil] at hlen
        omega
    | cons c q =>
        rw [hq, List.cons_append] at hm
        simp only [Bool.and_eq_true, beq_iff_eq] at hm
        obtain ⟨hc, hseg⟩ := hm
        have hswap := segOk_swap hseg
          (by
            cases hs0 : s with
            | nil => exact Or.inl rfl
            | cons c3 t3 =>
                right
                rw [hs0] at hsOk
                unfold sufOkB at hsOk
                simp only [List.head?_cons, Option.some_inj]
                exact (beq_iff_eq.mp hsOk).symm ▸ rfl)
          (Y := '.' :: (k ++ s)) (by unfold sufOkB; simp)
        rw [matchAtB.eq_def]
        rw [drop_append_of_le _ (le_of_lt hj), hq, List.cons_append]
        simp only [Bool.and_eq_true, beq_iff_eq]
        exact ⟨hc, hswap.1⟩
  · refine ⟨j + 14, ?_, by omega⟩
    push_neg at hj
    have h1 : (p ++ s).drop j = s.drop (j - p.length) := by
      rw [List.drop_append_eq_append_drop, List.drop_eq_nil_of_le hj, List.nil_append]
    have h2 : (p ++ '.' :: (k ++ s)).drop (j + 14) = s.drop (j - p.length) := by
      have hassoc : p ++ '.' :: (k ++ s) = (p ++ '.' :: k) ++ s := by simp
      have hlen : (p ++ '.' :: k).length = p.length + 14 := by
        simp [hk]
      rw [hassoc, List.drop_append_eq_append_drop, List.drop_eq_nil_of_le (by omega),
        List.nil_append, hlen]
      congr 1
      omega
    rw [matchAtB.eq_def] at hm ⊢
    rw [h2]
    rw [h1] at hm
    exact hm

/-- Unpacking a successful `fullmatch`. -/
theorem fullmatchIdx_some_spec {path : List Char} {i : Nat}
    (h : fullmatchIdx path = some i) :
    hasNl path = false ∧ matchAtB path i = true ∧
      ∀ j, j < i → matchAtB path j = false := by
  unfold fullmatchIdx at h
  cases hnl : hasNl path with
  | true => rw [hnl] at h; simp at h
  | false =>
      rw [hnl] at h
      simp only [Bool.false_eq_true, if_false] at h
      exact ⟨rfl, scanIdx_sound h, scanIdx_least h⟩

/-- The regex groups at the matched position decompose the name. -/
theorem groups_decomp {path : List Char} {i : Nat} (hm : matchAtB path i = true) :
    path = gPre path i ++ '.' :: (gChk path i ++ gSuf path i) ∧
      (gPre path i).length = i ∧ (gChk path i).length = 13 ∧
      (gChk path i).all validChar = true ∧ sufOkB (gSuf path i) = true := by
  obtain ⟨p, k, s, heq, hp, hk, hkall, hsOk⟩ := matchAtB_decomp hm
  obtain ⟨hg1, hg2, hg3⟩ := groups_at_insertion p k s hk
  rw [hp] at hg1 hg2 hg3
  rw [← heq] at hg1 hg2 hg3
  rw [hg1, hg2, hg3]
  exact ⟨heq, hp, hk, hkall, hsOk⟩

theorem matchAtB_lt_length {l : List Char} {i : Nat}
    (h : matchAtB l i = true) : i < l.length := by
  rw [matchAtB.eq_def] at h
  cases hd : l.drop i with
  | nil => rw [hd] at h; cases h
  | cons c rest => exact drop_ne_nil_lt_length hd

/-! ## Claim theorems -/

/-- C1 (counterexample): on a name with two checksum-shaped segments the
extracted value is the leftmost one, not the rightmost one claimed by the
spec — the lazy `.*?` group commits to the shortest possible text before
the checksum group. -/
theorem c1_counterexample :
    checksum ("x.aaaaaaaaaaaaa.bbbbbbbbbbbbb".toList) = some ("aaaaaaaaaaaaa".toList) ∧
      checksum ("x.aaaaaaaaaaaaa.bbbbbbbbbbbbb".toList) ≠ some ("bbbbbbbbbbbbb".toList) := by
  decide

/-- C1 (amended): `checksum` fails exactly on unmatched names, and on a
matched name it returns the LEFTMOST checksum-shaped dot-preceded segment,
lower-cased. -/
theorem c1_checksum_leftmost (name : List Char) (hnl : hasNl name = false) :
    (has_checksum name = false → checksum name = none) ∧
      ∀ p k s, name = p ++ '.' :: (k ++ s) → k.length = 13 →
        k.all validChar = true → sufOkB s = true →
        (∀ j, j < p.length → matchAtB name j = false) →
        checksum name = some (k.map Char.toLower) := by
  constructor
  · intro h
    unfold has_checksum at h
    cases hidx : fullmatchIdx name with
    | none => simp [checksum, hidx]
    | some i => rw [hidx] at h; cases h
  · intro p k s hdec hk13 hkall hsOk hmin
    have hm : matchAtB name p.length = true := by
      rw [hdec]
      exact matchAtB_of_decomp p hk13 hkall hsOk
    have hidx : fullmatchIdx name = some p.length := by
      unfold fullmatchIdx
      rw [hnl]
      simp only [Bool.false_eq_true, if_false]
      rw [scanIdx_eq_some_iff]
      exact ⟨hm, hmin⟩
    have hgchk : gChk name p.length = k := by
      rw [hdec]
      exact (groups_at_insertion p k s hk13).2.1
    simp [checksum, hidx, hgchk]

theorem c1_checksum_leftmost_witness :
    checksum ("example.txt".toList) = none ∧
      checksum ("a.aaaaaaaaaaaaa.txt".toList) =
        some (("aaaaaaaaaaaaa".toList).map Char.toLower) :=
  ⟨(c1_checksum_leftmost ("example.txt".toList) (by decide)).1 (by decide),
   (c1_checksum_leftmost ("a.aaaaaaaaaaaaa.txt".toList) (by decide)).2
     ("a".toList) ("aaaaaaaaaaaaa".toList) (".txt".toList)
     (by decide) (by decide) (by decide) (by decide) (by decide)⟩

/-- C2 (counterexample): the round-trip claim quantifies over every
unlocked filename, but a filename containing a newline is renamed by
`write_checksum` and never recognised afterwards (regex `.` does not match
a newline), so `delete_checksum` is a no-op and the original name is not
restored. -/
theorem c2_counterexample :
    has_checksum ("a\nb".toList) = false ∧
      delete_checksum (write_checksum ⟨"a\nb".toList, "0123456789abc".toList⟩) ≠
        ⟨"a\nb".toList, "0123456789abc".toList⟩ := by
  decide

/-- C2 (amended): for every nonempty unlocked filename that contains no
newline character and every checksum value of exactly 13 characters over
`0-9a-z`, `delete_checksum` after `write_checksum` restores the original
filename (extensioned names, extensionless names and dotfiles included). -/
theorem c2_roundtrip (name value : List Char) (hne : name ≠ [])
    (hnl : hasNl name = false) (hun : has_checksum name = false)
    (hv13 : value.length = 13) (hvc : value.all lowerAlnum = true) :
    delete_checksum (write_checksum ⟨name, value⟩) = ⟨name, value⟩ := by
  have hvc2 : value.all validChar = true := all_lowerAlnum_validChar hvc
  have hw : write_checksum ⟨name, value⟩ =
      ⟨pyStem name ++ '.' :: (value ++ pySuffix name), value⟩ := by
    simp [write_checksum, hun]
  rw [hw]
  have hidx := fullmatchIdx_write hnl hun hv13 hvc2
  obtain ⟨hg1, hg2, hg3⟩ := groups_at_insertion (pyStem name) value (pySuffix name) hv13
  unfold delete_checksum
  simp only [hidx]
  rw [hg1, hg3, pyStem_append_pySuffix]
  simp [hne]

theorem c2_roundtrip_witness :
    delete_checksum (write_checksum ⟨"example.txt".toList, "abcd1234efgh5".toList⟩) =
      ⟨"example.txt".toList, "abcd1234efgh5".toList⟩ :=
  c2_roundtrip _ _ (by decide) (by decide) (by decide) (by decide) (by decide)

/-- C3 (counterexample): `delete_checksum` is not idempotent on a filename
with two checksum-shaped segments — the first application removes only the
leftmost segment and leaves a name that is still locked, so the second
application renames again. -/
theorem c3_counterexample :
    delete_checksum (delete_checksum
        ⟨"x.aaaaaaaaaaaaa.bbbbbbbbbbbbb".toList, "aaaaaaaaaaaaa".toList⟩) ≠
      delete_checksum ⟨"x.aaaaaaaaaaaaa.bbbbbbbbbbbbb".toList, "aaaaaaaaaaaaa".toList⟩ := by
  decide

/-- C3 (amended): `write_checksum` is idempotent on newline-free names with
a valid 13-character checksum value, and having at most one match position
suffices for `delete_checksum` to be idempotent — this covers every
unlocked and every singly-locked name.  It is only a sufficient condition:
the universal claim fails on the counterexample name (two segments with a
nonempty remainder after the first strip), while some doubly-segmented
names, such as a dot followed by two checksum segments, are idempotent
anyway because the second strip is blocked by the empty-name guard. -/
theorem c3_idempotence :
    (∀ c : Checksum, hasNl c.path = false → c.value.length = 13 →
        c.value.all lowerAlnum = true →
        write_checksum (write_checksum c) = write_checksum c) ∧
      ∀ c : Checksum,
        (∀ i, i < c.path.length → ∀ j, j < c.path.length →
          matchAtB c.path i = true → matchAtB c.path j = true → i = j) →
        delete_checksum (delete_checksum c) = delete_checksum c := by
  constructor
  · rintro ⟨name, value⟩ hnl hv13 hvc
    by_cases h : has_checksum name = true
    · have hfix : write_checksum ⟨name, value⟩ = ⟨name, value⟩ := by
        simp [write_checksum, h]
      rw [hfix, hfix]
    · have hun : has_checksum name = false := by
        cases hb : has_checksum name with
        | false => rfl
        | true => exact absurd hb h
      have hw : write_checksum ⟨name, value⟩ =
          ⟨pyStem name ++ '.' :: (value ++ pySuffix name), value⟩ := by
        simp [write_checksum, hun]
      rw [hw]
      have hidx := fullmatchIdx_write hnl hun hv13 (all_lowerAlnum_validChar hvc)
      have hlock : has_checksum (pyStem name ++ '.' :: (value ++ pySuffix name)) = true := by
        unfold has_checksum
        rw [hidx]
        rfl
      simp [write_checksum, hlock]
  · rintro ⟨name, value⟩ huniq
    cases hidx : fullmatchIdx name with
    | none =>
        have hfix : delete_checksum ⟨name, value⟩ = ⟨name, value⟩ := by
          simp [delete_checksum, hidx]
        rw [hfix, hfix]
    | some i =>
        by_cases hemp : gPre name i ++ gSuf name i = []
        · have hfix : delete_checksum ⟨name, value⟩ = ⟨name, value⟩ := by
            simp [delete_checksum, hidx, hemp]
          rw [hfix, hfix]
        · have hdel : delete_checksum ⟨name, value⟩ =
              ⟨gPre name i ++ gSuf name i, value⟩ := by
            simp [delete_checksum, hidx, hemp]
          rw [hdel]
          obtain ⟨hnl2, hm, hmin⟩ := fullmatchIdx_some_spec hidx
          obtain ⟨hdecomp, hpl, hkl, hkall, hsOk⟩ := groups_decomp hm
          have hnone : fullmatchIdx (gPre name i ++ gSuf name i) = none := by
            unfold fullmatchIdx
            cases hnl3 : hasNl (gPre name i ++ gSuf name i) with
            | true => simp
            | false =>
                simp only [Bool.false_eq_true, if_false]
                rw [scanIdx_eq_none_iff]
                intro j
                cases hmj : matchAtB (gPre name i ++ gSuf name i) j with
                | false => rfl
                | true =>
                    exfalso
                    obtain ⟨j2, hj2, hj2ne⟩ := match_lift hkl hsOk hmj
                    rw [← hdecomp] at hj2
                    have hij := huniq j2 (matchAtB_lt_length hj2) i
                      (matchAtB_lt_length hm) hj2 hm
                    rw [hpl] at hj2ne
                    exact hj2ne hij
          simp [delete_checksum, hnone]

theorem c3_idempotence_witness :
    write_checksum (write_checksum ⟨"example.txt".toList, "abcd1234efgh5".toList⟩) =
        write_checksum ⟨"example.txt".toList, "abcd1234efgh5".toList⟩ ∧
      delete_checksum (delete_checksum
          ⟨"example.abcd1234efgh5.txt".toList, "abcd1234efgh5".toList⟩) =
        delete_checksum ⟨"example.abcd1234efgh5.txt".toList, "abcd1234efgh5".toList⟩ :=
  ⟨c3_idempotence.1 _ (by decide) (by decide) (by decide),
   c3_idempotence.2 _ (by decide)⟩

/-- C5 (counterexample): a filename whose stem is exactly 13 alphabet
characters is NOT treated as locked when the 13 characters are not
preceded by a dot — `has_checksum` is false and `write_checksum` renames. -/
theorem c5_counterexample :
    has_checksum ("abcdefghijklm.txt".toList) = false ∧
      (write_checksum ⟨"abcdefghijklm.txt".toList, "0123456789abc".toList⟩).path ≠
        "abcdefghijklm.txt".toList := by
  decide

/-- C5 (amended): a filename whose final dot-delimited segment consists of
exactly 13 alphabet characters (newline-free before the dot) is treated as
already locked, and `write_checksum` is a no-op on it; this covers the
dotfile case `'.' ++ 13 characters` with empty leading part. -/
theorem c5_suffix_locked (s k v : List Char) (hnl : hasNl s = false)
    (hk13 : k.length = 13) (hkc : k.all validChar = true) :
    has_checksum (s ++ '.' :: k) = true ∧
      write_checksum ⟨s ++ '.' :: k, v⟩ = ⟨s ++ '.' :: k, v⟩ := by
  have hm : matchAtB (s ++ '.' :: (k ++ [])) s.length = true :=
    matchAtB_of_decomp s hk13 hkc (by rfl)
  rw [List.append_nil] at hm
  have hnl2 : hasNl (s ++ '.' :: k) = false := by
    rw [hasNl_append, Bool.or_eq_false_iff]
    refine ⟨hnl, ?_⟩
    show (('.' :: k).any (· == '\n')) = false
    rw [List.any_cons, Bool.or_eq_false_iff]
    exact ⟨by decide, hasNl_eq_false_of_validChar hkc⟩
  have hlock : has_checksum (s ++ '.' :: k) = true := by
    unfold has_checksum fullmatchIdx
    rw [hnl2]
    simp only [Bool.false_eq_true, if_false]
    exact scanIdx_isSome_of_matchAt hm
  exact ⟨hlock, by simp [write_checksum, hlock]⟩

theorem c5_suffix_locked_witness :
    has_checksum (".factorization".toList) = true ∧
      write_checksum ⟨".factorization".toList, "0123456789abc".toList⟩ =
        ⟨".factorization".toList, "0123456789abc".toList⟩ := by
  have h := c5_suffix_locked [] ("factorization".toList) ("0123456789abc".toList)
    (by decide) (by decide) (by decide)
  exact h

/-- C6 (counterexample): the repository test name `.factorization` is a
locked path (the whole name is a dot plus 13 alphabet characters), yet
`delete_checksum` does not rename it: removing the matched segment would
leave an empty filename, which the walrus guard rejects. -/
theorem c6_counterexample :
    has_checksum (".factorization".toList) = true ∧
      delete_checksum ⟨".factorization".toList, "factorization".toList⟩ =
        ⟨".factorization".toList, "factorization".toList⟩ := by
  decide

/-- C6 (amended): `delete_checksum` is a no-op when the path is not locked
AND ALSO when removing the matched segment would leave an empty name
(dot-plus-13-characters filenames); on every other locked path it removes
exactly the matched (leftmost) segment, a genuine rename. -/
theorem c6_delete_characterization (c : Checksum) :
    (has_checksum c.path = false → delete_checksum c = c) ∧
      (∀ i, fullmatchIdx c.path = some i → gPre c.path i ++ gSuf c.path i = [] →
        delete_checksum c = c) ∧
      ∀ i, fullmatchIdx c.path = some i → gPre c.path i ++ gSuf c.path i ≠ [] →
        delete_checksum c = ⟨gPre c.path i ++ gSuf c.path i, c.value⟩ ∧
          gPre c.path i ++ gSuf c.path i ≠ c.path := by
  refine ⟨?_, ?_, ?_⟩
  · intro h
    unfold has_checksum at h
    cases hidx : fullmatchIdx c.path with
    | none => simp [delete_checksum, hidx]
    | some i => rw [hidx] at h; cases h
  · intro i hidx hemp
    simp [delete_checksum, hidx, hemp]
  · intro i hidx hne
    refine ⟨by simp [delete_checksum, hidx, hne], ?_⟩
    obtain ⟨hnl2, hm, hmin⟩ := fullmatchIdx_some_spec hidx
    obtain ⟨hdecomp, hpl, hkl, hkall, hsOk⟩ := groups_decomp hm
    intro hcon
    have h1 := congrArg List.length hdecomp
    have h2 := congrArg List.length hcon
    simp only [List.length_append, List.length_cons] at h1 h2
    omega

theorem c6_delete_characterization_witness :
    delete_checksum ⟨"example.txt".toList, "v".toList⟩ =
        ⟨"example.txt".toList, "v".toList⟩ ∧
      delete_checksum ⟨"example.abcd1234efgh5.txt".toList, "v".toList⟩ =
          ⟨gPre ("example.abcd1234efgh5.txt".toList) 7 ++
            gSuf ("example.abcd1234efgh5.txt".toList) 7, "v".toList⟩ ∧
        gPre ("example.abcd1234efgh5.txt".toList) 7 ++
            gSuf ("example.abcd1234efgh5.txt".toList) 7 ≠
          "example.abcd1234efgh5.txt".toList :=
  ⟨(c6_delete_characterization ⟨"example.txt".toList, "v".toList⟩).1 (by decide),
   (c6_delete_characterization ⟨"example.abcd1234efgh5.txt".toList, "v".toList⟩).2.2 7
     (by decide) (by decide)⟩

/-! ## Digest shape lemmas -/

theorem wordBytes_lt (w : Nat) : ∀ b ∈ wordBytes w, b < 256 := by
  intro b hb
  simp only [wordBytes, List.mem_cons, List.not_mem_nil, or_false] at hb
  rcases hb with rfl | rfl | rfl | rfl <;> exact Nat.mod_lt _ (by norm_num)

theorem sha256_length (msg : List Nat) : (sha256 msg).length = 32 := by
  unfold sha256
  simp [stateWords, wordBytes]

theorem sha256_bytes_lt (msg : List Nat) : ∀ b ∈ sha256 msg, b < 256 := by
  intro b hb
  unfold sha256 at hb
  rw [List.mem_flatMap] at hb
  obtain ⟨w, _, hbw⟩ := hb
  exact wordBytes_lt w b hbw

theorem foldl_bytes_lt (bs : List Nat) (h : ∀ b ∈ bs, b < 256) :
    ∀ acc : Nat, bs.foldl (fun a b => a * 256 + b) acc < (acc + 1) * 256 ^ bs.length := by
  induction bs with
  | nil => intro acc; simp
  | cons b t ih =>
      intro acc
      simp only [List.foldl_cons, List.length_cons]
      have hb : b < 256 := h b (List.mem_cons_self _ _)
      have ht : ∀ x ∈ t, x < 256 := fun x hx => h x (List.mem_cons_of_mem _ hx)
      calc t.foldl (fun a b => a * 256 + b) (acc * 256 + b)
          < (acc * 256 + b + 1) * 256 ^ t.length := ih ht _
        _ ≤ ((acc + 1) * 256) * 256 ^ t.length := by
            have : acc * 256 + b + 1 ≤ (acc + 1) * 256 := by nlinarith
            exact Nat.mul_le_mul_right _ this
        _ = (acc + 1) * 256 ^ (t.length + 1) := by ring

theorem fromBytesBE_lt {bs : List Nat} (h : ∀ b ∈ bs, b < 256) :
    fromBytesBE bs < 256 ^ bs.length := by
  have := foldl_bytes_lt bs h 0
  simpa [fromBytesBE] using this

theorem base36revGo_length (fuel : Nat) : ∀ n k, n ≤ fuel → n < 36 ^ k →
    (base36revGo fuel n).length ≤ k := by
  induction fuel with
  | zero => intro n k h1 h2; simp [base36revGo]
  | succ f ih =>
      intro n k h1 h2
      simp only [base36revGo]
      by_cases h0 : n = 0
      · simp [h0]
      · rw [if_neg h0]
        obtain ⟨k', rfl⟩ : ∃ k', k = k' + 1 := by
          refine ⟨k - 1, ?_⟩
          rcases Nat.eq_zero_or_pos k with hk0 | hk1
          · rw [hk0, pow_zero] at h2; omega
          · omega
        simp only [List.length_cons]
        have hdiv : n / 36 < 36 ^ k' := by
          rw [Nat.div_lt_iff_lt_mul (by norm_num)]
          calc n < 36 ^ (k' + 1) := h2
            _ = 36 ^ k' * 36 := by ring
        have hfuel : n / 36 ≤ f := by
          have := Nat.div_lt_self (Nat.pos_of_ne_zero h0) (show 1 < 36 by norm_num)
          omega
        have := ih (n / 36) k' hfuel hdiv
        omega

theorem base36Digits_getD_lowerAlnum (n : Nat) :
    lowerAlnum (base36Digits.getD (n % 36) '0') = true := by
  have h36 : n % 36 < 36 := Nat.mod_lt _ (by norm_num)
  set m := n % 36 with hm
  interval_cases m <;> decide

theorem base36revGo_lowerAlnum (fuel : Nat) :
    ∀ n, (base36revGo fuel n).all lowerAlnum = true := by
  induction fuel with
  | zero => intro n; simp [base36revGo]
  | succ f ih =>
      intro n
      simp only [base36revGo]
      by_cases h0 : n = 0
      · simp [h0]
      · rw [if_neg h0, List.all_cons, Bool.and_eq_true]
        exact ⟨base36Digits_getD_lowerAlnum n, ih _⟩

theorem base_36_length_le {n : Nat} (h : n < 36 ^ 13) :
    (base_36 n).length ≤ 13 := by
  unfold base_36
  by_cases h0 : n = 0
  · simp [h0]
  · rw [if_neg h0, List.length_reverse]
    exact base36revGo_length n n 13 (Nat.le_refl n) h

theorem base_36_lowerAlnum (n : Nat) : (base_36 n).all lowerAlnum = true := by
  unfold base_36
  by_cases h0 : n = 0
  · subst h0; decide
  · rw [if_neg h0, List.all_reverse]
    exact base36revGo_lowerAlnum n n

theorem zfill_length {s : List Char} (h : s.length ≤ 13) :
    (zfill s 13).length = 13 := by
  simp only [zfill, List.length_append, List.length_replicate]
  omega

theorem zfill_all {s : List Char} (h : s.all lowerAlnum = true) :
    (zfill s 13).all lowerAlnum = true := by
  unfold zfill
  rw [List.all_append, Bool.and_eq_true]
  refine ⟨?_, h⟩
  rw [List.all_eq_true]
  intro c hc
  rw [List.eq_of_mem_replicate hc]
  decide

/-- Every checksum value produced by the digester is 13 characters over
`0-9a-z`: the first 8 digest bytes read in base 256 are below
`256 ^ 8 < 36 ^ 13`. -/
theorem compute_digest_shape (content : List Nat) :
    (compute_digest content).length = 13 ∧
      (compute_digest content).all lowerAlnum = true := by
  unfold compute_digest
  have htake : ∀ b ∈ (sha256 content).take ((sha256 content).length / 4), b < 256 :=
    fun b hb => sha256_bytes_lt content b (List.take_subset _ _ hb)
  have hlen8 : ((sha256 content).take ((sha256 content).length / 4)).length = 8 := by
    rw [List.length_take, sha256_length]
    decide
  have hval : fromBytesBE ((sha256 content).take ((sha256 content).length / 4)) < 36 ^ 13 := by
    have h1 := fromBytesBE_lt htake
    rw [hlen8] at h1
    calc fromBytesBE _ < 256 ^ 8 := h1
      _ < 36 ^ 13 := by norm_num
  exact ⟨zfill_length (base_36_length_le hval), zfill_all (base_36_lowerAlnum _)⟩

set_option maxRecDepth 8000

/-- C4 (counterexample): the checksum of an empty file is not the padded
zero `0000000000000`: the source hashes the empty message, whose SHA-256 is
not all zero bytes. -/
theorem c4_counterexample :
    compute_digest [] ≠ ("0000000000000".toList) := by
  decide

/-- C4 (amended): the checksum of an empty file is the fixed, reproducible
value `3gng7kheu33tg` (base-36 of the first 8 bytes of the SHA-256 of the
empty message, as the repository test asserts), and digesting is
deterministic: it is a pure function of the byte content. -/
theorem c4_empty_digest :
    compute_digest [] = ("3gng7kheu33tg".toList) ∧
      ∀ c₁ c₂ : List Nat, c₁ = c₂ → compute_digest c₁ = compute_digest c₂ :=
  ⟨by decide, fun _ _ h => congrArg compute_digest h⟩

theorem c4_empty_digest_witness :
    compute_digest [] = ("3gng7kheu33tg".toList) ∧
      compute_digest [0] = compute_digest [0] :=
  ⟨c4_empty_digest.1, c4_empty_digest.2 [0] [0] rfl⟩

/-- C10 (counterexample): the digest always has the right shape, but
locking does NOT always succeed in one step for every unlocked path: a
newline-bearing unlocked name is renamed yet still fails `has_checksum`. -/
theorem c10_counterexample :
    has_checksum ("a\nb".toList) = false ∧
      has_checksum (write_checksum ⟨"a\nb".toList, compute_digest []⟩).path = false := by
  constructor
  · decide
  · decide

/-- C10 (amended): every digest value is exactly 13 characters over
`0-9a-z`, and for every newline-free unlocked path, the filename produced
by `write_checksum` with such a digest satisfies `has_checksum`. -/
theorem c10_digest_locks (content : List Nat) (name : List Char)
    (hnl : hasNl name = false) (hun : has_checksum name = false) :
    ((compute_digest content).length = 13 ∧
        (compute_digest content).all lowerAlnum = true) ∧
      has_checksum (write_checksum ⟨name, compute_digest content⟩).path = true := by
  obtain ⟨hl, ha⟩ := compute_digest_shape content
  refine ⟨⟨hl, ha⟩, ?_⟩
  have hw : write_checksum ⟨name, compute_digest content⟩ =
      ⟨pyStem name ++ '.' :: (compute_digest content ++ pySuffix name),
        compute_digest content⟩ := by
    simp [write_checksum, hun]
  rw [hw]
  have hidx := fullmatchIdx_write hnl hun hl (all_lowerAlnum_validChar ha)
  unfold has_checksum
  rw [hidx]
  rfl

theorem c10_digest_locks_witness :
    (((compute_digest []).length = 13 ∧
        (compute_digest []).all lowerAlnum = true) ∧
      has_checksum (write_checksum ⟨"example.txt".toList, compute_digest []⟩).path = true) :=
  c10_digest_locks [] ("example.txt".toList) (by decide) (by decide)

/-! ## Frame-reading loop lemmas -/

/-- Loop invariant of `framesLoop`: as long as at most three misses occur
in total the loop succeeds, omitting the missed frames; as soon as a
fourth miss occurs it raises. -/
theorem framesLoop_spec {α : Type} (read : Nat → Option α) (total : ℚ) :
    ∀ (fns : List Nat) (missed : List Nat) (acc : List (α × ℚ)),
      missed.length ≤ 3 →
      (missedCount read fns + missed.length ≤ 3 →
        framesLoop read total fns missed acc =
          .ok (acc.reverse ++ readFrames read total fns)) ∧
      (4 ≤ missedCount read fns + missed.length →
        framesLoop read total fns missed acc = .error ("opencv read third strike")) := by
  intro fns
  induction fns with
  | nil =>
      intro missed acc hm
      constructor
      · intro hc
        simp [framesLoop, readFrames]
      · intro hc
        exfalso
        simp [missedCount] at hc
        omega
  | cons n rest ih =>
      intro missed acc hm
      cases hr : read n with
      | some img =>
          have hcount : missedCount read (n :: rest) = missedCount read rest := by
            simp [missedCount, List.filter_cons, hr]
          have hread : readFrames read total (n :: rest) =
              (img, (n : ℚ) / total) :: readFrames read total rest := by
            simp [readFrames, List.filterMap_cons, hr]
          have hloop : framesLoop read total (n :: rest) missed acc =
              framesLoop read total rest missed ((img, (n : ℚ) / total) :: acc) := by
            simp [framesLoop, hr]
          obtain ⟨hok, herr⟩ := ih missed ((img, (n : ℚ) / total) :: acc) hm
          constructor
          · intro hc
            rw [hcount] at hc
            rw [hloop, hok hc, hread]
            simp
          · intro hc
            rw [hcount] at hc
            rw [hloop, herr hc]
      | none =>
          have hcount : missedCount read (n :: rest) = missedCount read rest + 1 := by
            simp [missedCount, List.filter_cons, hr]
          by_cases h3 : 3 ≤ missed.length
          · have hloop : framesLoop read total (n :: rest) missed acc =
                .error ("opencv read third strike") := by
              simp [framesLoop, hr, h3]
            constructor
            · intro hc
              rw [hcount] at hc
              omega
            · intro hc
              exact hloop
          · have hloop : framesLoop read total (n :: rest) missed acc =
                framesLoop read total rest (missed ++ [n]) acc := by
              simp [framesLoop, hr, h3]
            have hmlen : (missed ++ [n]).length = missed.length + 1 := by simp
            obtain ⟨hok, herr⟩ := ih (missed ++ [n]) acc (by omega)
            have hread : readFrames read total (n :: rest) =
                readFrames read total rest := by
              simp [readFrames, List.filterMap_cons, hr]
            constructor
            · intro hc
              rw [hcount] at hc
              rw [hloop, hok (by omega), hread]
            · intro hc
              rw [hcount] at hc
              rw [hloop, herr (by omega)]

/-- C8 (counterexample): three unreadable frames are silently tolerated —
the loop returns success with an empty capture — and the hard failure
happens only at a fourth unreadable frame, not at the third as claimed. -/
theorem c8_counterexample :
    opencv_frames (fun _ => (none : Option Unit)) 10 [1, 2, 3] = .ok [] ∧
      opencv_frames (fun _ => (none : Option Unit)) 10 [1, 2, 3, 4] =
        .error ("opencv read third strike") := by
  constructor <;> rfl

/-- C8 (amended): the primary-backend read loop tolerates up to THREE
missed frames, whose entries are simply omitted from the result, and
raises (triggering the fallback backend) exactly when a FOURTH unreadable
frame is encountered. -/
theorem c8_missed_tolerance {α : Type} (read : Nat → Option α) (total : ℚ)
    (fns : List Nat) :
    (missedCount read fns ≤ 3 →
        opencv_frames read total fns = .ok (readFrames read total fns)) ∧
      (4 ≤ missedCount read fns →
        opencv_frames read total fns = .error ("opencv read third strike")) := by
  have h := framesLoop_spec read total fns [] [] (by simp)
  unfold opencv_frames
  simpa using h

theorem c8_missed_tolerance_witness :
    opencv_frames (fun n => if n = 2 then none else some ()) (10 : ℚ) [1, 2, 3] =
        .ok (readFrames (fun n => if n = 2 then none else some ()) (10 : ℚ) [1, 2, 3]) ∧
      opencv_frames (fun _ => (none : Option Unit)) (10 : ℚ) [1, 2, 3, 4] =
        .error ("opencv read third strike") :=
  ⟨(c8_missed_tolerance (fun n => if n = 2 then none else some ()) 10 [1, 2, 3]).1
      (by decide),
   (c8_missed_tolerance (fun _ => (none : Option Unit)) 10 [1, 2, 3, 4]).2 (by decide)⟩

/-! ## `CompositeMetadata` lemmas -/

theorem dictGet_dictSet (agg : List (Nat × MetaObj)) (ty : Nat) (m : MetaObj) :
    dictGet (dictSet agg ty m) ty = some m := by
  induction agg with
  | nil => simp [dictSet, dictGet]
  | cons p rest ih =>
      obtain ⟨t, x⟩ := p
      unfold dictSet
      by_cases ht : (t == ty) = true
      · rw [if_pos ht]
        simp [dictGet]
      · rw [if_neg ht]
        unfold dictGet at ih ⊢
        rw [List.find?_cons_of_neg _ (by simpa using ht)]
        exact ih

/-- C9: with an instance of a type present, adding a distinct instance of
the same type without `overwrite` raises `ValueError` before the state is
touched (the model returns the error and no updated collection), while
adding with `overwrite := true` succeeds and `get` then returns the new
instance. -/
theorem c9_composite_overwrite (agg : List (Nat × MetaObj)) (m1 m2 : MetaObj)
    (hget : dictGet agg m1.ty = some m1) (hty : m2.ty = m1.ty) (hne : m2 ≠ m1) :
    addMeta agg m2 false = .error ("already added") ∧
      addMeta agg m2 true = .ok (dictSet agg m2.ty m2) ∧
      dictGet (dictSet agg m2.ty m2) m2.ty = some m2 := by
  refine ⟨?_, ?_, dictGet_dictSet agg m2.ty m2⟩
  · unfold addMeta
    rw [if_pos]
    refine ⟨rfl, ?_, ?_⟩
    · rw [hty, hget]
      rfl
    · rw [hty, hget]
      intro hcon
      exact hne (Option.some_inj.mp hcon).symm
  · unfold addMeta
    rw [if_neg]
    simp

theorem c9_composite_overwrite_witness :
    addMeta [(5, ⟨5, 0⟩)] ⟨5, 1⟩ false = .error ("already added") ∧
      addMeta [(5, ⟨5, 0⟩)] ⟨5, 1⟩ true = .ok (dictSet [(5, ⟨5, 0⟩)] 5 ⟨5, 1⟩) ∧
      dictGet (dictSet [(5, ⟨5, 0⟩)] 5 ⟨5, 1⟩) 5 = some ⟨5, 1⟩ :=
  c9_composite_overwrite [(5, ⟨5, 0⟩)] ⟨5, 0⟩ ⟨5, 1⟩ (by decide) rfl (by decide)

/-! ## `frame_spec` arithmetic -/

theorem natLog10_pos {n : Nat} (h : 10 ≤ n) : 1 ≤ natLog10 n := by
  unfold natLog10
  obtain ⟨f, rfl⟩ : ∃ f, n = f + 1 := ⟨n - 1, by omega⟩
  simp only [log10Go]
  rw [if_neg (by omega)]
  omega

theorem logFrames_ge_four {fir : Nat} (h : 3 ≤ fir) : 4 ≤ logFrames 3 fir := by
  unfold logFrames
  have h10 : 10 ≤ (fir + 1) ^ 3 := by
    calc (10 : Nat) ≤ 4 ^ 3 := by norm_num
      _ ≤ (fir + 1) ^ 3 := Nat.pow_le_pow_left (by omega) 3
  have := natLog10_pos h10
  omega

theorem targetFrames_pos {fir : Nat} (h1 : 1 ≤ fir) :
    1 ≤ targetFrames 3 fir := by
  unfold targetFrames
  by_cases hc : 3 < logFrames 3 fir
  · rw [if_pos hc]
    exact le_min (by omega) h1
  · rw [if_neg hc]
    omega

theorem stepSize_pos {fir : Nat} (h1 : 1 ≤ fir) : 1 ≤ stepSize 3 fir := by
  have ht := targetFrames_pos h1
  unfold stepSize ceilDiv
  rw [Nat.le_div_iff_mul_le (by omega)]
  omega

/-- The sampled count is at least `min 3 fir`. -/
theorem ceilDiv_count_ge (fir : Nat) (h1 : 1 ≤ fir) :
    min 3 fir ≤ ceilDiv fir (stepSize 3 fir) := by
  by_cases hf1 : fir = 1
  · subst hf1; decide
  by_cases hf2 : fir = 2
  · subst hf2; decide
  have hf3 : 3 ≤ fir := by omega
  have hlf := logFrames_ge_four hf3
  have hmin : min 3 fir = 3 := by omega
  rw [hmin]
  unfold stepSize targetFrames
  rw [if_pos (by omega)]
  by_cases hcase : fir ≤ logFrames 3 fir
  · rw [Nat.min_eq_right hcase]
    have hstep : ceilDiv fir fir = 1 :=
      Nat.div_eq_of_lt_le (by omega) (by omega)
    rw [hstep]
    unfold ceilDiv
    simp
    omega
  · push_neg at hcase
    rw [Nat.min_eq_left (le_of_lt hcase)]
    have hd := Nat.div_mul_le_self (fir - 1) (logFrames 3 fir)
    have hdt : 4 * ((fir - 1) / logFrames 3 fir) ≤ fir - 1 := by
      have h1 : ((fir - 1) / logFrames 3 fir) * 4 ≤
          ((fir - 1) / logFrames 3 fir) * logFrames 3 fir :=
        Nat.mul_le_mul_left _ hlf
      omega
    have hstepEq : ceilDiv fir (logFrames 3 fir) = (fir - 1) / logFrames 3 fir + 1 := by
      unfold ceilDiv
      have he : fir + logFrames 3 fir - 1 = (fir - 1) + logFrames 3 fir := by omega
      rw [he, Nat.add_div_right _ (by omega)]
    rw [hstepEq]
    unfold ceilDiv
    rw [Nat.le_div_iff_mul_le (by omega)]
    omega

/-- Shape of a Python `range(start, endF + 1, step)` with a positive step:
strictly increasing, bounded by the end points, of the expected length. -/
theorem pyRange_facts (start endF step : Nat) (hse : start ≤ endF) (hstep : 1 ≤ step) :
    List.Pairwise (· < ·) (pyRange start (endF + 1) step) ∧
      (∀ x ∈ pyRange start (endF + 1) step, start ≤ x ∧ x ≤ endF) ∧
      (pyRange start (endF + 1) step).length = ceilDiv (endF + 1 - start) step := by
  unfold pyRange
  refine ⟨List.pairwise_lt_range' _ _ _ (by omega), ?_, by simp [List.length_range']⟩
  intro x hx
  rw [List.mem_range'] at hx
  obtain ⟨i, hi, rfl⟩ := hx
  have hL1 : 1 ≤ endF + 1 - start := by omega
  have hcnt : ceilDiv (endF + 1 - start) step = (endF + 1 - start - 1) / step + 1 := by
    unfold ceilDiv
    have he : endF + 1 - start + step - 1 = (endF + 1 - start - 1) + step := by omega
    rw [he, Nat.add_div_right _ (by omega)]
  rw [hcnt] at hi
  have hub : step * i ≤ endF + 1 - start - 1 := by
    have hi2 : i ≤ (endF + 1 - start - 1) / step := by omega
    calc step * i ≤ step * ((endF + 1 - start - 1) / step) :=
          Nat.mul_le_mul_left step hi2
      _ ≤ endF + 1 - start - 1 := by
          rw [mul_comm]
          exact Nat.div_mul_le_self _ _
  omega

/-- C7 (counterexample): a one-frame clip yields `frame_numbers = [1]`:
only one sample (below the claimed minimum of three) and the sampled frame
number 1 exceeds 97.5% of the total (0.975). -/
theorem c7_counterexample :
    (frame_spec ⟨1, 25, 100, 100, 1⟩ 3).frame_numbers = [1] ∧
      (frame_spec ⟨1, 25, 100, 100, 1⟩ 3).frame_numbers.length < 3 ∧
      ¬ ((1 : ℚ) ≤ (975 / 1000) * ((1 : Nat) : ℚ)) := by
  refine ⟨by decide, by decide, by norm_num⟩

/-- C7 (amended): for metrics with at least one frame and positive rate
and dimensions, `frame_spec` (at the default `min_sample_size = 3`) yields
a strictly increasing list whose elements lie between 2.5% of `N`
(inclusive, the code start bound `⌈N·2.5/100⌉` rounds up) and the rounded
end bound `⌈N·97.5/100⌉` — which can exceed 97.5% of `N` by less than one
frame — and whose length is at least `min 3 frames_in_range` (for clips
with fewer than 3 frames in the sampling window the count equals that
window size, not 3). -/
theorem c7_frame_spec_bounds (mt : Metrics) (hN : 1 ≤ mt.number_of_frames)
    (hr : 0 < mt.frame_rate) (hw : 0 < mt.width) (hh : 0 < mt.height) :
    List.Pairwise (· < ·) (frame_spec mt 3).frame_numbers ∧
      (∀ x ∈ (frame_spec mt 3).frame_numbers,
        (mt.number_of_frames : ℚ) * (25 / 1000) ≤ (x : ℚ) ∧
          x ≤ endFrame mt.number_of_frames) ∧
      min 3 (framesInRange mt.number_of_frames) ≤
        (frame_spec mt 3).frame_numbers.length := by
  have hse : startFrame mt.number_of_frames ≤ endFrame mt.number_of_frames := by
    unfold startFrame endFrame ceilDiv
    have hmul : mt.number_of_frames * 25 ≤ mt.number_of_frames * 975 :=
      Nat.mul_le_mul_left _ (by norm_num)
    exact Nat.div_le_div_right (by omega)
  have hfir1 : 1 ≤ framesInRange mt.number_of_frames := by
    unfold framesInRange
    omega
  have hstep := stepSize_pos hfir1
  obtain ⟨hpw, hmem, hlen⟩ := pyRange_facts (startFrame mt.number_of_frames)
    (endFrame mt.number_of_frames) (stepSize 3 (framesInRange mt.number_of_frames))
    hse hstep
  have hfneq : (frame_spec mt 3).frame_numbers =
      pyRange (startFrame mt.number_of_frames) (endFrame mt.number_of_frames + 1)
        (stepSize 3 (framesInRange mt.number_of_frames)) := rfl
  rw [hfneq]
  refine ⟨hpw, ?_, ?_⟩
  · intro x hx
    obtain ⟨hlo, hhi⟩ := hmem x hx
    refine ⟨?_, hhi⟩
    have h1000 : mt.number_of_frames * 25 ≤ 1000 * startFrame mt.number_of_frames := by
      unfold startFrame ceilDiv
      have hdm := Nat.div_add_mod (mt.number_of_frames * 25 + 999) 1000
      have hm : (mt.number_of_frames * 25 + 999) % 1000 < 1000 :=
        Nat.mod_lt _ (by norm_num)
      omega
    have h2 : mt.number_of_frames * 25 ≤ 1000 * x := by
      have := Nat.mul_le_mul_left 1000 hlo
      omega
    have h3 : ((mt.number_of_frames * 25 : Nat) : ℚ) ≤ ((1000 * x : Nat) : ℚ) := by
      exact_mod_cast h2
    push_cast at h3
    linarith
  · rw [hlen]
    have hrange : endFrame mt.number_of_frames + 1 - startFrame mt.number_of_frames =
        framesInRange mt.number_of_frames := by
      unfold framesInRange
      omega
    rw [hrange]
    exact ceilDiv_count_ge _ hfir1

theorem c7_frame_spec_bounds_witness :
    List.Pairwise (· < ·)
        (frame_spec ⟨(149 : ℚ) / 30, 30, 1280, 720, 149⟩ 3).frame_numbers ∧
      (∀ x ∈ (frame_spec ⟨(149 : ℚ) / 30, 30, 1280, 720, 149⟩ 3).frame_numbers,
        ((149 : Nat) : ℚ) * (25 / 1000) ≤ (x : ℚ) ∧ x ≤ endFrame 149) ∧
      min 3 (framesInRange 149) ≤
        (frame_spec ⟨(149 : ℚ) / 30, 30, 1280, 720, 149⟩ 3).frame_numbers.length :=
  c7_frame_spec_bounds ⟨(149 : ℚ) / 30, 30, 1280, 720, 149⟩
    (by norm_num) (by norm_num) (by norm_num) (by norm_num)

end Logbook
